import Mathlib

/-!
Verification of the SIMBAD candidate search-and-ranking pipeline.

The probability model is the Cython module simbad/util/ext/c_matthews_prob.pyx:
"c_calculate_solvent_probability" evaluates a fixed 15-coefficient Chebyshev
series over domain [0,1] (via numpy.polynomial.Chebyshev, i.e. a Clenshaw
recurrence on the affinely mapped argument) and exponentiates the result;
"c_get_max_score" scans a list of hypothesis rows for the row of maximal
probability.  Real arithmetic models the double-precision arithmetic of the
source; rational arithmetic models the score comparisons, which involve no
transcendental functions.
-/

namespace Simbad

/-- Chebyshev polynomials of the first kind by the textbook recurrence
T 0 = 1, T 1 = t, T (n+2) = 2 t T (n+1) - T n.  This is the spec-side
notion of "the Chebyshev polynomial". -/
def chebT {R : Type} [CommRing R] : ℕ → R → R
  | 0, _ => 1
  | 1, t => t
  | n + 2, t => 2 * t * chebT (n + 1) t - chebT n t

/-- Truncated Chebyshev series: the sum of cs[i] * T (k+i) (t) over the
coefficient list cs, starting at basis index k. -/
def chebSumFrom {R : Type} [CommRing R] : ℕ → List R → R → R
  | _, [], _ => 0
  | k, c :: rest, t => c * chebT k t + chebSumFrom (k + 1) rest t

/-- State of the Clenshaw recurrence of numpy.polynomial.chebyshev.chebval:
the pair (c0, c1) after consuming the coefficient list from its last element
towards its first.  An empty list is never passed by the source. -/
def chebvalPair {R : Type} [CommRing R] (t : R) : List R → R × R
  | [] => (0, 0)
  | [a] => (a, 0)
  | [a, b] => (a, b)
  | a :: rest =>
    let p := chebvalPair t rest
    (a - p.2, p.1 + p.2 * (2 * t))

/-- Evaluation of a Chebyshev coefficient list at t, exactly as
numpy.polynomial.chebyshev.chebval returns c0 + c1*x. -/
def chebval {R : Type} [CommRing R] (cs : List R) (t : R) : R :=
  (chebvalPair t cs).1 + (chebvalPair t cs).2 * t

/-- A numpy Chebyshev series object with domain=[0,1] and the default window
[-1,1] maps its argument by x -> 2*x - 1 (mapparms gives off=-1, scl=2)
before the Clenshaw evaluation. -/
def numpyChebyshevDomain01 {R : Type} [CommRing R] (cs : List R) (x : R) : R :=
  chebval cs (2 * x - 1)

/-- The fixed calibration coefficient list hard-coded in
c_calculate_solvent_probability (c_matthews_prob.pyx). -/
def coeffs : List ℝ :=
  [-14.105436736742137,
   -0.47015366358636385,
   -2.9151681976244639,
   -0.49308859741473005,
   0.90132625209729045,
   0.033529051311488103,
   0.088901407582105796,
   0.10749856607909694,
   0.055000918494099861,
   -0.052424473641668454,
   -0.045698882840119227,
   0.076048484096718036,
   -0.097645159906868589,
   0.03904454313991608,
   -0.072186667173865071]

/-- Source model of c_calculate_solvent_probability: build the numpy
Chebyshev series with the fixed coefficients over domain [0,1], evaluate it
at the input, and exponentiate. -/
noncomputable def c_calculate_solvent_probability (solvent : ℝ) : ℝ :=
  Real.exp (numpyChebyshevDomain01 coeffs solvent)

/-- Spec-side polynomial P: the degree-(len-1) Chebyshev series with
coefficient list cs over domain [0,1], written as the literal sum of
scaled basis polynomials at the mapped argument 2*x - 1. -/
def chebPoly01 {R : Type} [CommRing R] (cs : List R) (x : R) : R :=
  chebSumFrom 0 cs (2 * x - 1)

@[simp] theorem chebT_zero {R : Type} [CommRing R] (t : R) : chebT 0 t = 1 := rfl

@[simp] theorem chebT_one {R : Type} [CommRing R] (t : R) : chebT 1 t = t := rfl

theorem chebT_add_two {R : Type} [CommRing R] (n : ℕ) (t : R) :
    chebT (n + 2) t = 2 * t * chebT (n + 1) t - chebT n t := rfl

@[simp] theorem chebSumFrom_nil {R : Type} [CommRing R] (k : ℕ) (t : R) :
    chebSumFrom k ([] : List R) t = 0 := rfl

@[simp] theorem chebSumFrom_cons {R : Type} [CommRing R] (k : ℕ) (c : R) (rest : List R) (t : R) :
    chebSumFrom k (c :: rest) t = c * chebT k t + chebSumFrom (k + 1) rest t := rfl

theorem chebvalPair_cons {R : Type} [CommRing R] (t : R) (a b c : R) (rest : List R) :
    chebvalPair t (a :: b :: c :: rest) =
      (a - (chebvalPair t (b :: c :: rest)).2,
        (chebvalPair t (b :: c :: rest)).1 + (chebvalPair t (b :: c :: rest)).2 * (2 * t)) := rfl

/-- Invariant of the Clenshaw recurrence: the state pair (c0, c1) left by a
coefficient list cs represents the series sum of cs over the Chebyshev basis
shifted to start at index k. -/
theorem chebvalPair_spec {R : Type} [CommRing R] (t : R) :
    ∀ (cs : List R) (k : ℕ),
      (chebvalPair t cs).1 * chebT k t + (chebvalPair t cs).2 * chebT (k + 1) t
        = chebSumFrom k cs t
  | [], k => by simp [chebvalPair]
  | [a], k => by simp [chebvalPair]
  | [a, b], k => by simp [chebvalPair]
  | a :: b :: c :: rest, k => by
    have ih := chebvalPair_spec t (b :: c :: rest) (k + 1)
    rw [chebvalPair_cons, chebSumFrom_cons, ← ih]
    have hT : chebT (k + 2) t = 2 * t * chebT (k + 1) t - chebT k t := rfl
    simp only []
    rw [show k + 1 + 1 = k + 2 from rfl, hT]
    ring

/-- Clenshaw evaluation of a coefficient list agrees with the literal
truncated Chebyshev series. -/
theorem chebval_eq_chebSumFrom {R : Type} [CommRing R] (cs : List R) (t : R) :
    chebval cs t = chebSumFrom 0 cs t := by
  have h := chebvalPair_spec t cs 0
  simpa [chebval] using h

/-- The recurrence-defined Chebyshev value agrees with Mathlib's Chebyshev
polynomial of the first kind, evaluated at the same point. -/
theorem chebT_eq_polynomialT (n : ℕ) (t : ℝ) :
    chebT n t = (Polynomial.Chebyshev.T ℝ (n : ℤ)).eval t := by
  induction n using Nat.twoStepInduction with
  | zero => simp [Polynomial.Chebyshev.T_zero]
  | one => simp [Polynomial.Chebyshev.T_one]
  | more n ih1 ih2 =>
    have hcast : ((n : ℤ) + 2) = ((n + 2 : ℕ) : ℤ) := by push_cast; ring
    have hrec := Polynomial.Chebyshev.T_add_two ℝ (n : ℤ)
    rw [chebT_add_two, ih1, ih2, ← hcast, hrec]
    have hcast1 : ((n : ℤ) + 1) = ((n + 1 : ℕ) : ℤ) := by push_cast; ring
    rw [← hcast1]
    simp [Polynomial.eval_sub, Polynomial.eval_mul]

/-- On the window [-1, 1] every Chebyshev basis value has absolute value at
most 1. -/
theorem abs_chebT_le_one (n : ℕ) (t : ℝ) (h1 : -1 ≤ t) (h2 : t ≤ 1) :
    |chebT n t| ≤ 1 := by
  have ht : t = Real.cos (Real.arccos t) := (Real.cos_arccos h1 h2).symm
  rw [chebT_eq_polynomialT, ht, Polynomial.Chebyshev.T_real_cos]
  exact abs_le.mpr ⟨Real.neg_one_le_cos _, Real.cos_le_one _⟩

/-- A coefficient times a Chebyshev basis value on the window is bounded by
any bound on the coefficient's absolute value. -/
theorem mul_chebT_le {c b t : ℝ} (n : ℕ) (h1 : -1 ≤ t) (h2 : t ≤ 1)
    (hb1 : -b ≤ c) (hb2 : c ≤ b) : c * chebT n t ≤ b := by
  have habs := abs_chebT_le_one n t h1 h2
  calc c * chebT n t ≤ |c * chebT n t| := le_abs_self _
    _ = |c| * |chebT n t| := abs_mul _ _
    _ ≤ |c| * 1 := mul_le_mul_of_nonneg_left habs (abs_nonneg c)
    _ = |c| := mul_one _
    _ ≤ b := abs_le.mpr ⟨hb1, hb2⟩

/-- On the whole window the calibration series is strictly negative: the
constant coefficient -14.105... dominates the sum of the absolute values of
the remaining fourteen coefficients (about 5.448). -/
theorem chebSum_coeffs_neg (t : ℝ) (h1 : -1 ≤ t) (h2 : t ≤ 1) :
    chebSumFrom 0 coeffs t < 0 := by
  have hb : ∀ (c b : ℝ) (n : ℕ), -b ≤ c → c ≤ b → c * chebT n t ≤ b :=
    fun c b n hb1 hb2 => mul_chebT_le n h1 h2 hb1 hb2
  have g02 := hb (-2.9151681976244639) 2.9151681976244639 2 (by norm_num) (by norm_num)
  have g03 := hb (-0.49308859741473005) 0.49308859741473005 3 (by norm_num) (by norm_num)
  have g04 := hb 0.90132625209729045 0.90132625209729045 4 (by norm_num) (by norm_num)
  have g05 := hb 0.033529051311488103 0.033529051311488103 5 (by norm_num) (by norm_num)
  have g06 := hb 0.088901407582105796 0.088901407582105796 6 (by norm_num) (by norm_num)
  have g07 := hb 0.10749856607909694 0.10749856607909694 7 (by norm_num) (by norm_num)
  have g08 := hb 0.055000918494099861 0.055000918494099861 8 (by norm_num) (by norm_num)
  have g09 := hb (-0.052424473641668454) 0.052424473641668454 9 (by norm_num) (by norm_num)
  have g10 := hb (-0.045698882840119227) 0.045698882840119227 10 (by norm_num) (by norm_num)
  have g11 := hb 0.076048484096718036 0.076048484096718036 11 (by norm_num) (by norm_num)
  have g12 := hb (-0.097645159906868589) 0.097645159906868589 12 (by norm_num) (by norm_num)
  have g13 := hb 0.03904454313991608 0.03904454313991608 13 (by norm_num) (by norm_num)
  have g14 := hb (-0.072186667173865071) 0.072186667173865071 14 (by norm_num) (by norm_num)
  simp only [coeffs, chebSumFrom_cons, chebSumFrom_nil, chebT_zero, chebT_one, mul_one,
    Nat.reduceAdd]
  linarith

/-- C1: on the calibration domain the probability model returns exactly
exp (P x), where P is the fixed 15-coefficient (degree-14) Chebyshev series
over domain [0,1]; the coefficient list is the constant "coeffs", identical
on every call. -/
theorem C1_fit_probability_eq_exp_chebyshev (x : ℝ) (_h0 : 0 ≤ x) (_h1 : x ≤ 1) :
    c_calculate_solvent_probability x = Real.exp (chebPoly01 coeffs x) ∧
      coeffs.length = 15 := by
  refine ⟨?_, by simp [coeffs]⟩
  unfold c_calculate_solvent_probability numpyChebyshevDomain01 chebPoly01
  rw [chebval_eq_chebSumFrom]

/-- Witness for C1 at x = 1/2. -/
theorem C1_fit_probability_eq_exp_chebyshev_witness :
    c_calculate_solvent_probability 0.5 = Real.exp (chebPoly01 coeffs 0.5) ∧
      coeffs.length = 15 :=
  C1_fit_probability_eq_exp_chebyshev 0.5 (by norm_num) (by norm_num)

/-- C2: on the calibration domain the returned value is strictly positive
and strictly below 1, hence lies in [0,1] and below every upper bound
exp (P max) of the exponentiated series. -/
theorem C2_fit_probability_in_unit_interval (x : ℝ) (h0 : 0 ≤ x) (h1 : x ≤ 1) :
    0 < c_calculate_solvent_probability x ∧ c_calculate_solvent_probability x < 1 := by
  refine ⟨Real.exp_pos _, ?_⟩
  unfold c_calculate_solvent_probability numpyChebyshevDomain01
  rw [chebval_eq_chebSumFrom, Real.exp_lt_one_iff]
  exact chebSum_coeffs_neg (2 * x - 1) (by linarith) (by linarith)

/-- Witness for C2 at x = 1/2. -/
theorem C2_fit_probability_in_unit_interval_witness :
    0 < c_calculate_solvent_probability 0.5 ∧ c_calculate_solvent_probability 0.5 < 1 :=
  C2_fit_probability_in_unit_interval 0.5 (by norm_num) (by norm_num)

/-- C9: the probability model is total on every real input: with no domain
check in the source the same exponentiated-series value is returned outside
[0,1] as well, and it is always well defined and strictly positive. -/
theorem C9_fit_probability_total_on_reals (x : ℝ) :
    c_calculate_solvent_probability x = Real.exp (chebPoly01 coeffs x) ∧
      0 < c_calculate_solvent_probability x := by
  refine ⟨?_, Real.exp_pos _⟩
  unfold c_calculate_solvent_probability numpyChebyshevDomain01 chebPoly01
  rw [chebval_eq_chebSumFrom]

/-- Loop of c_get_max_score (c_matthews_prob.pyx): scan the rows, reading
row[-1] as the probability; on a strict improvement over the running maximum
(initialised to 0) also read row[0] (copies) and row[1] (solvent fraction).
Out-of-range indexing, which would raise in the source, is modelled as none.
The final statement returns the pair (solvent_fraction, n_copies). -/
def c_get_max_score_loop : ℚ → ℚ → ℚ → List (List ℚ) → Option (ℚ × ℚ)
  | _, n_copies, solvent_fraction, [] => some (solvent_fraction, n_copies)
  | max, n_copies, solvent_fraction, e :: rest =>
    match e.getLast? with
    | none => none
    | some prob =>
      if max < prob then
        match e.head?, e.get? 1 with
        | some c, some s => c_get_max_score_loop prob c s rest
        | _, _ => none
      else c_get_max_score_loop max n_copies solvent_fraction rest

/-- Source model of c_get_max_score: running maximum 0.0, defaults
n_copies = 1 and solvent_fraction = 0.5. -/
def c_get_max_score (scores : List (List ℚ)) : Option (ℚ × ℚ) :=
  c_get_max_score_loop 0 1 0.5 scores

theorem c_get_max_score_loop_nil (m n s : ℚ) :
    c_get_max_score_loop m n s [] = some (s, n) := rfl

theorem c_get_max_score_loop_cons (m n s : ℚ) (e : List ℚ) (rest : List (List ℚ)) :
    c_get_max_score_loop m n s (e :: rest) =
      match e.getLast? with
      | none => none
      | some prob =>
        if m < prob then
          match e.head?, e.get? 1 with
          | some c, some sf => c_get_max_score_loop prob c sf rest
          | _, _ => none
        else c_get_max_score_loop m n s rest := rfl

/-- When no row's probability strictly exceeds the running maximum, the loop
never touches rows beyond their last element and returns its accumulator. -/
theorem c_get_max_score_loop_no_improve (scores : List (List ℚ)) :
    ∀ (m n s : ℚ), (∀ e ∈ scores, ∃ q, e.getLast? = some q ∧ q ≤ m) →
      c_get_max_score_loop m n s scores = some (s, n) := by
  induction scores with
  | nil => intro m n s _; rfl
  | cons e rest ih =>
    intro m n s h
    obtain ⟨q, hq, hqm⟩ := h e (List.mem_cons_self e rest)
    rw [c_get_max_score_loop_cons, hq]
    simp only [not_lt.mpr hqm, if_false]
    exact ih m n s fun e2 he2 => h e2 (List.mem_cons_of_mem e he2)

/-- If some row's probability strictly exceeds the running maximum, the loop
returns the (solvent_fraction, copies) pair of a row whose probability beats
the accumulator and is greatest among all rows. -/
theorem c_get_max_score_loop_improve (scores : List (List ℚ)) :
    ∀ (m n s : ℚ),
      (∀ e ∈ scores, 2 ≤ e.length) →
      (∃ e ∈ scores, ∃ q, e.getLast? = some q ∧ m < q) →
      ∃ e ∈ scores, ∃ p c sf,
        e.getLast? = some p ∧ e.head? = some c ∧ e.get? 1 = some sf ∧
        c_get_max_score_loop m n s scores = some (sf, c) ∧ m < p ∧
        (∀ e2 ∈ scores, ∀ q, e2.getLast? = some q → q ≤ p) := by
  induction scores with
  | nil => intro m n s _ himp; simp at himp
  | cons e rest ih =>
    intro m n s hlen himp
    obtain ⟨a, b, tl, rfl⟩ : ∃ a b tl, e = a :: b :: tl := by
      have h2 := hlen e (List.mem_cons_self e rest)
      match e, h2 with
      | a :: b :: tl, _ => exact ⟨a, b, tl, rfl⟩
    obtain ⟨q, hq⟩ := Option.isSome_iff_exists.mp
      (List.getLast?_isSome.mpr (List.cons_ne_nil a (b :: tl)))
    have hhead : (a :: b :: tl).head? = some a := rfl
    have hget1 : (a :: b :: tl).get? 1 = some b := rfl
    have hlenrest : ∀ e2 ∈ rest, 2 ≤ e2.length :=
      fun e2 he2 => hlen e2 (List.mem_cons_of_mem _ he2)
    by_cases hm : m < q
    · have hloop : c_get_max_score_loop m n s ((a :: b :: tl) :: rest) =
          c_get_max_score_loop q a b rest := by
        rw [c_get_max_score_loop_cons, hq]
        simp only [hm, if_true, hhead, hget1]
      by_cases hrest : ∃ e2 ∈ rest, ∃ q2, e2.getLast? = some q2 ∧ q < q2
      · obtain ⟨e2, he2, p2, c2, sf2, hp2, hc2, hsf2, hloop2, hqp2, hbound2⟩ :=
          ih q a b hlenrest hrest
        refine ⟨e2, List.mem_cons_of_mem _ he2, p2, c2, sf2, hp2, hc2, hsf2, ?_,
          lt_trans hm hqp2, ?_⟩
        · rw [hloop, hloop2]
        · intro e3 he3 q3 hq3
          rcases List.mem_cons.mp he3 with he3e | he3r
          · subst he3e
            have : q3 = q := Option.some.inj (hq3.symm.trans hq)
            subst this
            exact le_of_lt hqp2
          · exact hbound2 e3 he3r q3 hq3
      · push_neg at hrest
        have hnone : ∀ e2 ∈ rest, ∃ q2, e2.getLast? = some q2 ∧ q2 ≤ q := by
          intro e2 he2
          have hne : e2 ≠ [] := by
            intro hnil
            have h2 := hlenrest e2 he2
            rw [hnil] at h2
            simp at h2
          obtain ⟨q2, hq2⟩ := Option.isSome_iff_exists.mp (List.getLast?_isSome.mpr hne)
          exact ⟨q2, hq2, hrest e2 he2 q2 hq2⟩
        refine ⟨a :: b :: tl, List.mem_cons_self _ _, q, a, b, hq, hhead, hget1, ?_, hm, ?_⟩
        · rw [hloop]
          exact c_get_max_score_loop_no_improve rest q a b hnone
        · intro e3 he3 q3 hq3
          rcases List.mem_cons.mp he3 with he3e | he3r
          · subst he3e
            have : q3 = q := Option.some.inj (hq3.symm.trans hq)
            subst this
            exact le_refl _
          · obtain ⟨q2, hq2, hle⟩ := hnone e3 he3r
            have : q3 = q2 := Option.some.inj (hq3.symm.trans hq2)
            subst this
            exact hle
    · have hloop : c_get_max_score_loop m n s ((a :: b :: tl) :: rest) =
          c_get_max_score_loop m n s rest := by
        rw [c_get_max_score_loop_cons, hq]
        simp only [hm, if_false]
      have hrest : ∃ e2 ∈ rest, ∃ q2, e2.getLast? = some q2 ∧ m < q2 := by
        obtain ⟨e0, he0, q0, hq0, hmq0⟩ := himp
        rcases List.mem_cons.mp he0 with he0e | he0r
        · subst he0e
          have : q0 = q := Option.some.inj (hq0.symm.trans hq)
          subst this
          exact absurd hmq0 hm
        · exact ⟨e0, he0r, q0, hq0, hmq0⟩
      obtain ⟨e2, he2, p2, c2, sf2, hp2, hc2, hsf2, hloop2, hmp2, hbound2⟩ :=
        ih m n s hlenrest hrest
      refine ⟨e2, List.mem_cons_of_mem _ he2, p2, c2, sf2, hp2, hc2, hsf2, ?_, hmp2, ?_⟩
      · rw [hloop, hloop2]
      · intro e3 he3 q3 hq3
        rcases List.mem_cons.mp he3 with he3e | he3r
        · subst he3e
          have : q3 = q := Option.some.inj (hq3.symm.trans hq)
          subst this
          exact le_of_lt (lt_of_le_of_lt (not_lt.mp hm) hmp2)
        · exact hbound2 e3 he3r q3 hq3

/-- C3: on a non-empty hypothesis list whose rows all carry at least two
components and at least one strictly positive probability, c_get_max_score
returns the (solvent_fraction, copies) pair of a row whose probability equals
the maximum probability over the whole list. -/
theorem C3_select_best_hypothesis_attains_max (scores : List (List ℚ))
    (hlen : ∀ e ∈ scores, 2 ≤ e.length)
    (hpos : ∃ e ∈ scores, ∃ p, e.getLast? = some p ∧ 0 < p) :
    ∃ e ∈ scores, ∃ p c sf,
      e.getLast? = some p ∧ e.head? = some c ∧ e.get? 1 = some sf ∧
      c_get_max_score scores = some (sf, c) ∧
      (∀ e2 ∈ scores, ∀ q, e2.getLast? = some q → q ≤ p) := by
  obtain ⟨e, he, p, c, sf, hp, hc, hsf, hloop, _, hbound⟩ :=
    c_get_max_score_loop_improve scores 0 1 0.5 hlen hpos
  exact ⟨e, he, p, c, sf, hp, hc, hsf, hloop, hbound⟩

/-- Witness for C3 on the single-row list [[1, 2, 5]]. -/
theorem C3_select_best_hypothesis_attains_max_witness :
    (∀ e ∈ [[(1 : ℚ), 2, 5]], 2 ≤ e.length) ∧
    (∃ e ∈ [[(1 : ℚ), 2, 5]], ∃ p, e.getLast? = some p ∧ 0 < p) ∧
    (∃ e ∈ [[(1 : ℚ), 2, 5]], ∃ p c sf,
      e.getLast? = some p ∧ e.head? = some c ∧ e.get? 1 = some sf ∧
      c_get_max_score [[(1 : ℚ), 2, 5]] = some (sf, c) ∧
      (∀ e2 ∈ [[(1 : ℚ), 2, 5]], ∀ q, e2.getLast? = some q → q ≤ p)) := by
  refine ⟨by decide, ⟨[1, 2, 5], by decide, 5, by decide, by norm_num⟩, ?_⟩
  exact C3_select_best_hypothesis_attains_max [[(1 : ℚ), 2, 5]] (by decide)
    ⟨[1, 2, 5], by decide, 5, by decide, by norm_num⟩

/-- C4: the default hypothesis (solvent_fraction = 0.5, copies = 1) is
returned exactly on the empty list and whenever every row's probability is
non-positive. -/
theorem C4_select_best_hypothesis_default (scores : List (List ℚ))
    (h : ∀ e ∈ scores, ∃ p, e.getLast? = some p ∧ p ≤ 0) :
    c_get_max_score scores = some (0.5, 1) ∧
      c_get_max_score [] = some (0.5, 1) :=
  ⟨c_get_max_score_loop_no_improve scores 0 1 0.5 h, rfl⟩

/-- Witness for C4 on the list [[-1]] whose single probability is negative. -/
theorem C4_select_best_hypothesis_default_witness :
    (∀ e ∈ [[(-1 : ℚ)]], ∃ p, e.getLast? = some p ∧ p ≤ 0) ∧
    (c_get_max_score [[(-1 : ℚ)]] = some (0.5, 1) ∧
      c_get_max_score [] = some (0.5, 1)) := by
  have h : ∀ e ∈ [[(-1 : ℚ)]], ∃ p, e.getLast? = some p ∧ p ≤ 0 := by
    intro e he
    rw [List.mem_singleton] at he
    subst he
    exact ⟨-1, rfl, by norm_num⟩
  exact ⟨h, C4_select_best_hypothesis_default [[(-1 : ℚ)]] h⟩

/-- The loop returns some pair on any row list whose rows all have at least
two components. -/
theorem c_get_max_score_loop_total (scores : List (List ℚ)) :
    ∀ (m n s : ℚ), (∀ e ∈ scores, 2 ≤ e.length) →
      ∃ r, c_get_max_score_loop m n s scores = some r := by
  induction scores with
  | nil => intro m n s _; exact ⟨(s, n), rfl⟩
  | cons e rest ih =>
    intro m n s hlen
    obtain ⟨a, b, tl, rfl⟩ : ∃ a b tl, e = a :: b :: tl := by
      have h2 := hlen e (List.mem_cons_self e rest)
      match e, h2 with
      | a :: b :: tl, _ => exact ⟨a, b, tl, rfl⟩
    obtain ⟨q, hq⟩ := Option.isSome_iff_exists.mp
      (List.getLast?_isSome.mpr (List.cons_ne_nil a (b :: tl)))
    have hlenrest : ∀ e2 ∈ rest, 2 ≤ e2.length :=
      fun e2 he2 => hlen e2 (List.mem_cons_of_mem _ he2)
    rw [c_get_max_score_loop_cons, hq]
    by_cases hm : m < q
    · simp only [hm, if_true]
      exact ih q a b hlenrest
    · simp only [hm, if_false]
      exact ih m n s hlenrest

/-- C8: under the precondition that every row has at least two indexable
components, c_get_max_score is total: it touches no row on the empty list
and always returns a pair, with no out-of-bounds access reachable. -/
theorem C8_get_max_score_total (scores : List (List ℚ))
    (hlen : ∀ e ∈ scores, 2 ≤ e.length) :
    ∃ r, c_get_max_score scores = some r :=
  c_get_max_score_loop_total scores 0 1 0.5 hlen

/-- Witness for C8 on the two-component row [[1, 2]]. -/
theorem C8_get_max_score_total_witness :
    (∀ e ∈ [[(1 : ℚ), 2]], 2 ≤ e.length) ∧
    (∃ r, c_get_max_score [[(1 : ℚ), 2]] = some r) :=
  ⟨by decide, C8_get_max_score_total [[(1 : ℚ), 2]] (by decide)⟩

/-- The loop reads only components 0, 1 and last of each row: rows that
agree on those three projections drive it identically. -/
theorem c_get_max_score_loop_congr (l1 l2 : List (List ℚ))
    (h : List.Forall₂ (fun e1 e2 => e1.head? = e2.head? ∧ e1.get? 1 = e2.get? 1 ∧
      e1.getLast? = e2.getLast?) l1 l2) :
    ∀ (m n s : ℚ), c_get_max_score_loop m n s l1 = c_get_max_score_loop m n s l2 := by
  induction h with
  | nil => intro m n s; rfl
  | @cons a b l1x l2x h1 _ ih =>
    intro m n s
    obtain ⟨hh, hg, hl⟩ := h1
    rw [c_get_max_score_loop_cons, c_get_max_score_loop_cons, ← hh, ← hg, ← hl]
    cases hlast : a.getLast? with
    | none => rfl
    | some prob =>
      by_cases hmp : m < prob
      · simp only [hmp, if_true]
        cases hh2 : a.head? with
        | none => rfl
        | some c =>
          cases hg2 : a.get? 1 with
          | none => rfl
          | some sf => exact ih prob c sf
      · simp only [hmp, if_false]
        exact ih m n s

/-- C10: the result of c_get_max_score depends only on components 0, 1 and
last of each row; equal-length lists agreeing pairwise on these three
projections give identical results, all middle components being ignored. -/
theorem C10_get_max_score_reads_three_components (l1 l2 : List (List ℚ))
    (h : List.Forall₂ (fun e1 e2 => e1.head? = e2.head? ∧ e1.get? 1 = e2.get? 1 ∧
      e1.getLast? = e2.getLast?) l1 l2) :
    c_get_max_score l1 = c_get_max_score l2 :=
  c_get_max_score_loop_congr l1 l2 h 0 1 0.5

/-- Witness for C10: two rows differing only in an interior component. -/
theorem C10_get_max_score_reads_three_components_witness :
    List.Forall₂ (fun e1 e2 => e1.head? = e2.head? ∧ e1.get? 1 = e2.get? 1 ∧
      e1.getLast? = e2.getLast?) [[(1 : ℚ), 2, 99, 5]] [[(1 : ℚ), 2, 77, 5]] ∧
    c_get_max_score [[(1 : ℚ), 2, 99, 5]] = c_get_max_score [[(1 : ℚ), 2, 77, 5]] := by
  have h : List.Forall₂ (fun e1 e2 => e1.head? = e2.head? ∧ e1.get? 1 = e2.get? 1 ∧
      e1.getLast? = e2.getLast?) [[(1 : ℚ), 2, 99, 5]] [[(1 : ℚ), 2, 77, 5]] :=
    List.Forall₂.cons ⟨rfl, rfl, rfl⟩ List.Forall₂.nil
  exact ⟨h, C10_get_max_score_reads_three_components _ _ h⟩

/-- C5 fails as stated: two rows tie at the maximal probability 5 but carry
different payloads, and swapping them changes the returned pair. -/
theorem C5_reorder_counterexample :
    List.Perm [[(1 : ℚ), 2, 5], [3, 4, 5]] [[(3 : ℚ), 4, 5], [1, 2, 5]] ∧
    c_get_max_score [[(1 : ℚ), 2, 5], [3, 4, 5]] ≠
      c_get_max_score [[(3 : ℚ), 4, 5], [1, 2, 5]] :=
  ⟨List.Perm.swap _ _ _, by decide⟩

/-- C5 amended: the result is invariant under permutation of the input list
provided all rows attaining the maximal probability agree on their copies
and solvent-fraction components (in particular when the maximiser is
unique); with conflicting ties the first occurrence in list order wins. -/
theorem C5_reorder_invariant_amended (l1 l2 : List (List ℚ))
    (hperm : l1.Perm l2)
    (hlen : ∀ e ∈ l1, 2 ≤ e.length)
    (hpos : ∃ e ∈ l1, ∃ p, e.getLast? = some p ∧ 0 < p)
    (hties : ∀ e1 ∈ l1, ∀ e2 ∈ l1, ∀ p1 p2,
      e1.getLast? = some p1 → e2.getLast? = some p2 →
      (∀ e ∈ l1, ∀ q, e.getLast? = some q → q ≤ p1) →
      (∀ e ∈ l1, ∀ q, e.getLast? = some q → q ≤ p2) →
      e1.head? = e2.head? ∧ e1.get? 1 = e2.get? 1) :
    c_get_max_score l1 = c_get_max_score l2 := by
  have hlen2 : ∀ e ∈ l2, 2 ≤ e.length := fun e he => hlen e (hperm.mem_iff.mpr he)
  have hpos2 : ∃ e ∈ l2, ∃ p, e.getLast? = some p ∧ 0 < p := by
    obtain ⟨e, he, p, hp, hp0⟩ := hpos
    exact ⟨e, hperm.mem_iff.mp he, p, hp, hp0⟩
  obtain ⟨e1, he1, p1, c1, sf1, hp1, hc1, hsf1, hloop1, _, hbound1⟩ :=
    c_get_max_score_loop_improve l1 0 1 0.5 hlen hpos
  obtain ⟨e2, he2, p2, c2, sf2, hp2, hc2, hsf2, hloop2, _, hbound2⟩ :=
    c_get_max_score_loop_improve l2 0 1 0.5 hlen2 hpos2
  have he2' : e2 ∈ l1 := hperm.mem_iff.mpr he2
  have hbound2' : ∀ e ∈ l1, ∀ q, e.getLast? = some q → q ≤ p2 :=
    fun e he q hq => hbound2 e (hperm.mem_iff.mp he) q hq
  obtain ⟨hhead, hget1⟩ := hties e1 he1 e2 he2' p1 p2 hp1 hp2 hbound1 hbound2'
  have hc : c1 = c2 := Option.some.inj ((hc1.symm.trans hhead).trans hc2)
  have hsf : sf1 = sf2 := Option.some.inj ((hsf1.symm.trans hget1).trans hsf2)
  rw [show c_get_max_score l1 = some (sf1, c1) from hloop1,
    show c_get_max_score l2 = some (sf2, c2) from hloop2, hc, hsf]

/-- Witness for the amended C5 on a swapped pair with a unique maximiser. -/
theorem C5_reorder_invariant_amended_witness :
    List.Perm [[(1 : ℚ), 2, 5], [3, 4, 7]] [[(3 : ℚ), 4, 7], [1, 2, 5]] ∧
    c_get_max_score [[(1 : ℚ), 2, 5], [3, 4, 7]] =
      c_get_max_score [[(3 : ℚ), 4, 7], [1, 2, 5]] := by
  refine ⟨List.Perm.swap _ _ _, ?_⟩
  refine C5_reorder_invariant_amended _ _ (List.Perm.swap _ _ _) (by decide)
    ⟨[1, 2, 5], by decide, 5, by decide, by norm_num⟩ ?_
  intro e1 he1 e2 he2 p1 p2 hp1 hp2 hb1 hb2
  have h7 : ([3, 4, 7] : List ℚ).getLast? = some 7 := rfl
  have he1' : e1 = [3, 4, 7] := by
    rcases List.mem_cons.mp he1 with h | h
    · subst h
      have h5 : p1 = 5 := Option.some.inj (hp1.symm.trans rfl)
      have := hb1 [3, 4, 7] (by decide) 7 h7
      rw [h5] at this
      norm_num at this
    · rw [List.mem_singleton] at h
      exact h
  have he2' : e2 = [3, 4, 7] := by
    rcases List.mem_cons.mp he2 with h | h
    · subst h
      have h5 : p2 = 5 := Option.some.inj (hp2.symm.trans rfl)
      have := hb2 [3, 4, 7] (by decide) 7 h7
      rw [h5] at this
      norm_num at this
    · rw [List.mem_singleton] at h
      exact h
  rw [he1', he2']
  exact ⟨rfl, rfl⟩

/-- Modelled from the spec: states of the Early-Termination Controller of
section 4.6, whose implementation is not in the repository slice. -/
inductive ETState where
  | running
  | solutionFound
  | budgetExhausted
  | stopped
deriving DecidableEq

/-- Modelled from the spec: run configuration of the Early-Termination
Controller — the "process all" mode flag and the mode-specific success
predicate over ranked-table rows. -/
structure ETConfig (α : Type) where
  processAll : Bool
  accept : α → Bool

/-- Modelled from the spec: one controller step on a new ranked-table row.
In RUNNING the success predicate is evaluated unless the "process all" flag
disables the check entirely; on success the state becomes SOLUTION_FOUND. -/
def etStep {α : Type} (cfg : ETConfig α) (st : ETState) (row : α) : ETState :=
  match st with
  | ETState.running =>
    if cfg.processAll = false ∧ cfg.accept row = true then ETState.solutionFound
    else ETState.running
  | s => s

/-- Modelled from the spec: a whole run of the controller over the sequence
of arriving rows; if the candidate sequence is exhausted while still
RUNNING, the controller transitions to BUDGET_EXHAUSTED. -/
def etRun {α : Type} (cfg : ETConfig α) (rows : List α) : ETState :=
  match rows.foldl (etStep cfg) ETState.running with
  | ETState.running => ETState.budgetExhausted
  | s => s

theorem etFoldl_running_of_processAll {α : Type} (cfg : ETConfig α)
    (hpa : cfg.processAll = true) :
    ∀ rows : List α, List.foldl (etStep cfg) ETState.running rows = ETState.running := by
  intro rows
  induction rows with
  | nil => rfl
  | cons r rest ih =>
    rw [List.foldl_cons]
    have hstep : etStep cfg ETState.running r = ETState.running := by
      unfold etStep
      rw [hpa]
      simp
    rw [hstep]
    exact ih

/-- C6: with the "process all" flag set, the controller never reaches
SOLUTION_FOUND after any prefix of the arriving rows, whatever their
scores, and the full run ends with BUDGET_EXHAUSTED semantics. -/
theorem C6_process_all_forces_budget_exhausted {α : Type} (cfg : ETConfig α)
    (rows : List α) (i : ℕ) (hpa : cfg.processAll = true) :
    List.foldl (etStep cfg) ETState.running (rows.take i) ≠ ETState.solutionFound ∧
      etRun cfg rows = ETState.budgetExhausted := by
  constructor
  · rw [etFoldl_running_of_processAll cfg hpa]
    intro h
    exact ETState.noConfusion h
  · rw [etRun, etFoldl_running_of_processAll cfg hpa]

/-- Witness for C6 with an always-accepting predicate over two rows. -/
theorem C6_process_all_forces_budget_exhausted_witness :
    (ETConfig.mk true (fun _ : ℕ => true)).processAll = true ∧
    (List.foldl (etStep (ETConfig.mk true (fun _ : ℕ => true))) ETState.running
        ([0, 1].take 1) ≠ ETState.solutionFound ∧
      etRun (ETConfig.mk true (fun _ : ℕ => true)) [0, 1] = ETState.budgetExhausted) :=
  ⟨rfl, C6_process_all_forces_budget_exhausted (ETConfig.mk true (fun _ : ℕ => true))
    [0, 1] 1 rfl⟩

/-- Modelled from the spec: the per-candidate score record of the Candidate
Prefilter (section 4.3), carrying an identifier, the Geometry Comparator's
total penalty, and the calibrated probability score. -/
structure CandidateScore where
  ident : ℕ
  totalPenalty : ℚ
  probabilityScore : ℚ
deriving DecidableEq

/-- Modelled from the spec: the ordering of section 4.1 — ascending
total_penalty, ties broken by probability_score descending, then by
candidate identifier ascending. -/
def candLE (a b : CandidateScore) : Prop :=
  a.totalPenalty < b.totalPenalty ∨
    (a.totalPenalty = b.totalPenalty ∧
      (b.probabilityScore < a.probabilityScore ∨
        (a.probabilityScore = b.probabilityScore ∧ a.ident ≤ b.ident)))

instance : DecidableRel candLE := fun a b => by unfold candLE; infer_instance

instance : IsTotal CandidateScore candLE := by
  constructor
  intro a b
  rcases lt_trichotomy a.totalPenalty b.totalPenalty with h | h | h
  · exact Or.inl (Or.inl h)
  · rcases lt_trichotomy a.probabilityScore b.probabilityScore with h2 | h2 | h2
    · exact Or.inr (Or.inr ⟨h.symm, Or.inl h2⟩)
    · rcases le_total a.ident b.ident with h3 | h3
      · exact Or.inl (Or.inr ⟨h, Or.inr ⟨h2, h3⟩⟩)
      · exact Or.inr (Or.inr ⟨h.symm, Or.inr ⟨h2.symm, h3⟩⟩)
    · exact Or.inl (Or.inr ⟨h, Or.inl h2⟩)
  · exact Or.inr (Or.inl h)

instance : IsTrans CandidateScore candLE := by
  constructor
  intro a b c hab hbc
  rcases hab with h1 | ⟨h1, h1'⟩ <;> rcases hbc with h2 | ⟨h2, h2'⟩
  · exact Or.inl (lt_trans h1 h2)
  · exact Or.inl (by rw [← h2]; exact h1)
  · exact Or.inl (by rw [h1]; exact h2)
  · refine Or.inr ⟨h1.trans h2, ?_⟩
    rcases h1' with g1 | ⟨g1, g1'⟩ <;> rcases h2' with g2 | ⟨g2, g2'⟩
    · exact Or.inl (lt_trans g2 g1)
    · exact Or.inl (by rw [← g2]; exact g1)
    · exact Or.inl (by rw [g1]; exact g2)
    · exact Or.inr ⟨g1.trans g2, le_trans g1' g2'⟩

/-- Modelled from the spec: the Candidate Prefilter — score every candidate,
discard entries whose total_penalty exceeds the hard ceiling, sort ascending
by total_penalty with the tie-break of section 4.1, truncate to K. -/
def prefilter (pool : List CandidateScore) (ceiling : ℚ) (K : ℕ) : List CandidateScore :=
  (List.insertionSort candLE
    (pool.filter (fun cd => cd.totalPenalty ≤ ceiling))).take K

/-- C7: for every pool, ceiling and cap K the prefilter returns at most K
candidates, none above the penalty ceiling, sorted ascending by
total_penalty. -/
theorem C7_prefilter_cap_ceiling_sorted (pool : List CandidateScore)
    (ceiling : ℚ) (K : ℕ) :
    (prefilter pool ceiling K).length ≤ K ∧
    (∀ cd ∈ prefilter pool ceiling K, cd.totalPenalty ≤ ceiling) ∧
    List.Sorted (fun a b => a.totalPenalty ≤ b.totalPenalty)
      (prefilter pool ceiling K) := by
  refine ⟨?_, ?_, ?_⟩
  · rw [prefilter, List.length_take]
    exact min_le_left _ _
  · intro cd hcd
    have h1 : cd ∈ List.insertionSort candLE
        (pool.filter (fun cd => cd.totalPenalty ≤ ceiling)) :=
      List.take_subset _ _ hcd
    have h2 : cd ∈ pool.filter (fun cd => cd.totalPenalty ≤ ceiling) :=
      (List.perm_insertionSort candLE _).subset h1
    have h3 := List.of_mem_filter h2
    exact of_decide_eq_true h3
  · have hsorted : List.Sorted candLE (List.insertionSort candLE
        (pool.filter (fun cd => cd.totalPenalty ≤ ceiling))) :=
      List.sorted_insertionSort candLE _
    have htake : List.Sorted candLE (prefilter pool ceiling K) :=
      List.Pairwise.sublist (List.take_sublist _ _) hsorted
    refine htake.imp ?_
    intro a b hab
    rcases hab with h | ⟨h, _⟩
    · exact le_of_lt h
    · exact le_of_eq h

end Simbad
